import Mathlib

/-!
Verification of the Synapse-Agent swarm coordination core

Shallow embedding of the swarm consensus engine
(`core-swarm-engine/coordination/AdvancedSwarmConsensus.ts`) and of the
SwarmManager consensus/selection routines documented in
`SWARM_INTELLIGENCE_TECHNICAL_DOCUMENTATION.md` /
`SWARM_MANAGER_RECENT_IMPROVEMENTS.md`.

Modelling conventions:
* JavaScript numbers are embedded as exact rationals `ℚ`; a JavaScript
  division whose result can be non-finite (`NaN`/`Infinity`, i.e. a zero
  divisor) is embedded through `jsDiv`, which returns `none` in that case.
* A JavaScript `Map` is embedded as an insertion-ordered association list
  `List (κ × β)`: `Map.get` is `mapGet`, `Map.set` is `mapSet` (replace in
  place when the key exists, append otherwise), `Map.entries` iterates the
  list in order.
* `Array.prototype.sort` is stable (ECMA-262); a JS sort with comparator
  `(a, b) => f(b) - f(a)` is embedded as `List.insertionSort` with the
  total relation `fun x y => f y ≤ f x`, which is exactly the stable
  descending sort by `f`.
* `Array.prototype.reduce` with no initial value throws a `TypeError` on an
  empty array; callers whose input can be empty are embedded with `Option`
  (`none` = the thrown exception).
* `JSON.stringify` used for result deduplication is embedded as equality on
  the result type (an injective canonical serialization).
-/

namespace Synapse

/-- Embedding of a JavaScript division: `none` models a non-finite result
(`NaN` or `±Infinity`), produced exactly when the divisor is zero. -/
def jsDiv (a b : ℚ) : Option ℚ :=
  if b = 0 then none else some (a / b)

/-! ## JavaScript `Map` as an insertion-ordered association list -/

/-- JS `Map.get`: first entry with the given key, if any. -/
def mapGet {κ β : Type} [DecidableEq κ] : List (κ × β) → κ → Option β
  | [], _ => none
  | (k, v) :: m, q => if k = q then some v else mapGet m q

/-- Lookup with a default, `map.get(k) || d`. -/
def mapGetD {κ β : Type} [DecidableEq κ] (m : List (κ × β)) (q : κ) (d : β) : β :=
  (mapGet m q).getD d

/-- JS `Map.set`: replace the value in place when the key exists (the original
insertion position is kept, as for a JS `Map`), append otherwise. -/
def mapSet {κ β : Type} [DecidableEq κ] : List (κ × β) → κ → β → List (κ × β)
  | [], q, v => [(q, v)]
  | (k, w) :: m, q, v => if k = q then (k, v) :: m else (k, w) :: mapSet m q v

theorem mapGet_mapSet_self {κ β : Type} [DecidableEq κ] (m : List (κ × β)) (k : κ) (v : β) :
    mapGet (mapSet m k v) k = some v := by
  induction m with
  | nil => simp [mapGet, mapSet]
  | cons e m ih =>
      obtain ⟨a, b⟩ := e
      by_cases h : a = k
      · simp [mapGet, mapSet, h]
      · simp [mapGet, mapSet, h, ih]

theorem mapSet_of_get_none {κ β : Type} [DecidableEq κ] (m : List (κ × β)) (k : κ) (v : β)
    (h : mapGet m k = none) : mapSet m k v = m ++ [(k, v)] := by
  induction m with
  | nil => simp [mapSet]
  | cons e m ih =>
      obtain ⟨a, b⟩ := e
      by_cases hak : a = k
      · simp [mapGet, hak] at h
      · simp [mapGet, hak] at h
        simp [mapSet, hak, ih h]

theorem mapGet_append_of_none {κ β : Type} [DecidableEq κ] (m m' : List (κ × β)) (q : κ)
    (h : mapGet m q = none) : mapGet (m ++ m') q = mapGet m' q := by
  induction m with
  | nil => simp
  | cons e m ih =>
      obtain ⟨a, b⟩ := e
      by_cases haq : a = q
      · simp [mapGet, haq] at h
      · simp [mapGet, haq] at h ⊢
        exact ih h

theorem mapGet_map_of_mem {κ β : Type} [DecidableEq κ] (L : List κ) (g : κ → β) (a : κ)
    (ha : a ∈ L) : mapGet (L.map (fun k => (k, g k))) a = some (g a) := by
  induction L with
  | nil => cases ha
  | cons b L ih =>
      rcases List.mem_cons.mp ha with h | h
      · subst h; simp [mapGet]
      · by_cases hba : b = a
        · subst hba; simp [mapGet]
        · simp [mapGet, hba, ih h]

theorem mapGet_map_of_not_mem {κ β : Type} [DecidableEq κ] (L : List κ) (g : κ → β) (a : κ)
    (ha : a ∉ L) : mapGet (L.map (fun k => (k, g k))) a = none := by
  induction L with
  | nil => simp [mapGet]
  | cons b L ih =>
      simp only [List.mem_cons, not_or] at ha
      have hba : ¬ b = a := fun h => ha.1 h.symm
      simp [mapGet, hba, ih ha.2]

theorem mapSet_map_nodup {κ β : Type} [DecidableEq κ] (L : List κ) (g : κ → β) (r : κ) (v : β)
    (hnd : L.Nodup) (hr : r ∈ L) :
    mapSet (L.map (fun k => (k, g k))) r v
      = L.map (fun k => (k, if k = r then v else g k)) := by
  induction L with
  | nil => cases hr
  | cons a L ih =>
      rcases List.nodup_cons.mp hnd with ⟨hna, hnd'⟩
      by_cases har : a = r
      · subst har
        have hset : mapSet ((a, g a) :: L.map (fun k => (k, g k))) a v
            = (a, v) :: L.map (fun k => (k, g k)) := by simp [mapSet]
        rw [List.map_cons, hset, List.map_cons, if_pos rfl]
        congr 1
        refine List.map_congr_left ?_
        intro k hk
        have hk' : ¬ k = a := fun h => hna (h ▸ hk)
        simp [hk']
      · rcases List.mem_cons.mp hr with h | h
        · exact absurd h.symm har
        · simp only [List.map_cons, mapSet, if_neg har]
          rw [ih hnd' h]

/-- Folding `Map.set` over pairwise-fresh keys appends the corresponding
entries in order. -/
theorem foldl_mapSet_eq_append {σ κ β : Type} [DecidableEq κ]
    (key : σ → κ) (val : σ → β) :
    ∀ (xs : List σ) (acc : List (κ × β)),
      (xs.map key).Nodup → (∀ x ∈ xs, mapGet acc (key x) = none) →
      xs.foldl (fun m x => mapSet m (key x) (val x)) acc
        = acc ++ xs.map (fun x => (key x, val x)) := by
  intro xs
  induction xs with
  | nil => intro acc _ _; simp
  | cons a xs ih =>
      intro acc hnd hfresh
      have hstep : mapSet acc (key a) (val a) = acc ++ [(key a, val a)] :=
        mapSet_of_get_none _ _ _ (hfresh a (List.mem_cons_self a xs))
      have hnd' : (xs.map key).Nodup := (List.nodup_cons.mp (by simpa using hnd)).2
      have hka : key a ∉ xs.map key := (List.nodup_cons.mp (by simpa using hnd)).1
      have hfresh' : ∀ x ∈ xs, mapGet (acc ++ [(key a, val a)]) (key x) = none := by
        intro x hx
        have h1 : mapGet acc (key x) = none := hfresh x (List.mem_cons_of_mem a hx)
        rw [mapGet_append_of_none _ _ _ h1]
        have : key a ≠ key x := by
          intro h
          exact hka (h ▸ List.mem_map_of_mem key hx)
        simp [mapGet, this]
      calc (a :: xs).foldl (fun m x => mapSet m (key x) (val x)) acc
          = xs.foldl (fun m x => mapSet m (key x) (val x)) (acc ++ [(key a, val a)]) := by
            simp [hstep]
        _ = (acc ++ [(key a, val a)]) ++ xs.map (fun x => (key x, val x)) :=
            ih _ hnd' hfresh'
        _ = acc ++ (a :: xs).map (fun x => (key x, val x)) := by simp

theorem foldl_congr_of_mem {γ σ : Type} (l : List σ) (f g : γ → σ → γ)
    (h : ∀ b, ∀ x ∈ l, f b x = g b x) : ∀ b, l.foldl f b = l.foldl g b := by
  induction l with
  | nil => intro b; rfl
  | cons a l ih =>
      intro b
      simp only [List.foldl_cons]
      rw [h b a (List.mem_cons_self a l)]
      exact ih (fun b x hx => h b x (List.mem_cons_of_mem a hx)) _

/-! ## First-maximizer machinery

A JS `reduce((best, current) => score(current) > score(best) ? current : best)`
(and equally the head of a stable descending sort, and a `for` loop keeping a
strict maximum) selects the *earliest* maximizer of the score. -/

/-- One step of the JS strict-maximum selection. -/
def pickBetter {α β : Type} [LinearOrder β] (f : α → β) (best current : α) : α :=
  if f current > f best then current else best

/-- Earliest maximizer of `f` over a list (`none` on the empty list). -/
def argmaxFirst {α β : Type} [LinearOrder β] (f : α → β) : List α → Option α
  | [] => none
  | a :: t => some (t.foldl (pickBetter f) a)

theorem pickBetter_self {α β : Type} [LinearOrder β] (f : α → β) (x : α) :
    pickBetter f x x = x := by
  simp [pickBetter]

theorem pickBetter_assoc {α β : Type} [LinearOrder β] (f : α → β) (a b c : α) :
    pickBetter f (pickBetter f a b) c = pickBetter f a (pickBetter f b c) := by
  unfold pickBetter
  by_cases h1 : f b > f a
  · by_cases h2 : f c > f b
    · have h3 : f c > f a := h1.trans h2
      simp [h1, h2, h3]
    · simp [h1, h2]
  · by_cases h2 : f c > f b
    · by_cases h3 : f c > f a
      · simp [h1, h2, h3]
      · simp [h1, h2, h3]
    · have h3 : ¬ f c > f a := by
        simp only [gt_iff_lt, not_lt] at h1 h2 ⊢
        exact h2.trans h1
      simp [h1, h2, h3]

/-- The fold underlying `argmaxFirst` splits its input around the selected
element: everything before it scores strictly less, everything after scores
at most as much.  This is exactly "maximal, ties broken by input order". -/
theorem foldl_pickBetter_split {α β : Type} [LinearOrder β] (f : α → β) :
    ∀ (t : List α) (a : α), ∃ pre post,
      a :: t = pre ++ (t.foldl (pickBetter f) a) :: post ∧
      (∀ x ∈ pre, f x < f (t.foldl (pickBetter f) a)) ∧
      (∀ x ∈ post, f x ≤ f (t.foldl (pickBetter f) a)) := by
  intro t
  induction t using List.reverseRecOn with
  | nil =>
      intro a
      exact ⟨[], [], by simp, by simp, by simp⟩
  | append_singleton t' c ih =>
      intro a
      obtain ⟨pre, post, heq, hpre, hpost⟩ := ih a
      rw [List.foldl_append]
      set w' := t'.foldl (pickBetter f) a with hw'
      by_cases hc : f c > f w'
      · refine ⟨pre ++ w' :: post, [], ?_, ?_, by simp⟩
        · simp only [List.foldl_cons, List.foldl_nil, pickBetter, if_pos hc]
          rw [← List.cons_append, heq]
        · intro x hx
          simp only [List.foldl_cons, List.foldl_nil, pickBetter, if_pos hc]
          rcases List.mem_append.mp hx with hx | hx
          · exact (hpre x hx).trans hc
          · rcases List.mem_cons.mp hx with hx | hx
            · exact hx ▸ hc
            · exact lt_of_le_of_lt (hpost x hx) hc
      · refine ⟨pre, post ++ [c], ?_, ?_, ?_⟩
        · simp only [List.foldl_cons, List.foldl_nil, pickBetter, if_neg hc]
          rw [← List.cons_append, heq]
          simp
        · intro x hx
          simpa [pickBetter, if_neg hc] using hpre x hx
        · intro x hx
          simp only [List.foldl_cons, List.foldl_nil, pickBetter, if_neg hc]
          rcases List.mem_append.mp hx with hx | hx
          · exact hpost x hx
          · rw [List.mem_singleton.mp hx]
            exact le_of_not_lt hc

/-- Splitting property of `argmaxFirst`: strictly smaller scores before, at most
equal scores after. -/
theorem argmaxFirst_split {α β : Type} [LinearOrder β] (f : α → β) (l : List α) (w : α)
    (h : argmaxFirst f l = some w) :
    ∃ pre post, l = pre ++ w :: post ∧
      (∀ x ∈ pre, f x < f w) ∧ (∀ x ∈ post, f x ≤ f w) := by
  cases l with
  | nil => cases h
  | cons a t =>
      obtain ⟨pre, post, heq, hpre, hpost⟩ := foldl_pickBetter_split f t a
      have hw : t.foldl (pickBetter f) a = w := by
        simpa [argmaxFirst] using h
      exact ⟨pre, post, by rw [← hw]; exact heq, by rw [← hw]; exact hpre,
        by rw [← hw]; exact hpost⟩

theorem argmaxFirst_isSome {α β : Type} [LinearOrder β] (f : α → β) (l : List α)
    (h : l ≠ []) : ∃ w, argmaxFirst f l = some w := by
  cases l with
  | nil => exact absurd rfl h
  | cons a t => exact ⟨_, rfl⟩

/-- Extending the fold by an already-computed `argmaxFirst` of the tail. -/
theorem foldl_pickBetter_eq {α β : Type} [LinearOrder β] (f : α → β) :
    ∀ (t : List α) (a w : α), argmaxFirst f t = some w →
      t.foldl (pickBetter f) a = pickBetter f a w := by
  intro t
  induction t using List.reverseRecOn with
  | nil => intro a w h; cases h
  | append_singleton t' c ih =>
      intro a w h
      cases t' with
      | nil =>
          have hcw : c = w := by simpa [argmaxFirst] using h
          subst hcw
          rfl
      | cons a' t'' =>
          have harg : argmaxFirst f (a' :: t'') = some (t''.foldl (pickBetter f) a') := rfl
          have hw : pickBetter f (t''.foldl (pickBetter f) a') c = w := by
            have hcomb : argmaxFirst f ((a' :: t'') ++ [c])
                = some (pickBetter f (t''.foldl (pickBetter f) a') c) := by
              simp [argmaxFirst, List.foldl_append]
            rw [hcomb] at h
            exact Option.some_injective _ h
          rw [List.foldl_append, ih a _ harg]
          simp only [List.foldl_cons, List.foldl_nil]
          rw [pickBetter_assoc, hw]

/-- The descending-by-`f` relation used to embed a JS stable sort with
comparator `(a, b) => f(b) - f(a)`. -/
def descBy {α β : Type} [LinearOrder β] (f : α → β) (x y : α) : Prop := f y ≤ f x

instance descBy_decidable {α β : Type} [LinearOrder β] (f : α → β) :
    DecidableRel (descBy f) := fun x y => inferInstanceAs (Decidable (f y ≤ f x))

instance descBy_isTotal {α β : Type} [LinearOrder β] (f : α → β) :
    IsTotal α (descBy f) := ⟨fun a b => (le_total (f b) (f a)).imp id id⟩

instance descBy_isTrans {α β : Type} [LinearOrder β] (f : α → β) :
    IsTrans α (descBy f) := ⟨fun _ _ _ h1 h2 => le_trans h2 h1⟩

/-- The head of the stable descending sort is the earliest maximizer. -/
theorem head_insertionSort_descBy {α β : Type} [LinearOrder β] (f : α → β) (l : List α) :
    (l.insertionSort (descBy f)).head? = argmaxFirst f l := by
  induction l with
  | nil => rfl
  | cons a t ih =>
      simp only [List.insertionSort]
      cases hs : t.insertionSort (descBy f) with
      | nil =>
          have ht : t = [] := by
            have hp := List.perm_insertionSort (descBy f) t
            rw [hs] at hp
            exact (List.Perm.nil_eq hp).symm
          subst ht
          rfl
      | cons b s' =>
          have hb : argmaxFirst f t = some b := by
            rw [← ih, hs]
            rfl
          have hfold : t.foldl (pickBetter f) a = pickBetter f a b :=
            foldl_pickBetter_eq f t a b hb
          simp only [List.orderedInsert]
          by_cases hab : descBy f a b
          · rw [if_pos hab]
            simp only [List.head?_cons, argmaxFirst, hfold, pickBetter]
            have hnb : ¬ f b > f a := not_lt.mpr hab
            rw [if_neg hnb]
          · rw [if_neg hab]
            simp only [List.head?_cons, argmaxFirst, hfold, pickBetter]
            have hyb : f b > f a := lt_of_not_le hab
            rw [if_pos hyb]

/-- Commutation of `argmaxFirst` with `List.map`. -/
theorem argmaxFirst_map {α γ β : Type} [LinearOrder β] (f : γ → β) (g : α → γ) (l : List α) :
    argmaxFirst f (l.map g) = (argmaxFirst (fun x => f (g x)) l).map g := by
  cases l with
  | nil => rfl
  | cons a t =>
      simp only [List.map_cons, argmaxFirst, Option.map_some']
      congr 1
      rw [List.foldl_map]
      induction t generalizing a with
      | nil => rfl
      | cons c t ih =>
          simp only [List.foldl_cons]
          have hstep : pickBetter f (g a) (g c) = g (pickBetter (fun x => f (g x)) a c) := by
            unfold pickBetter
            split_ifs <;> rfl
          rw [hstep]
          exact ih _

/-! ## Frequency counting (`applyConsensus`'s `Map<string, number>`) -/

/-- Insertion order of the first occurrences of a list's elements: the key
order of a JS `Map` filled by iterating the list. -/
def firstOccurrences {α : Type} [DecidableEq α] (l : List α) : List α :=
  l.foldl (fun acc r => if r ∈ acc then acc else acc ++ [r]) []

/-- The counting loop of `applyConsensus`:
`count = map.get(key) || 0; map.set(key, count + 1)` over the list. -/
def countsOf {α : Type} [DecidableEq α] (l : List α) : List (α × ℕ) :=
  l.foldl (fun m r => mapSet m r (mapGetD m r 0 + 1)) []

theorem mem_foldl_firstOcc {α : Type} [DecidableEq α] :
    ∀ (l : List α) (acc : List α) (x : α),
      x ∈ l.foldl (fun acc r => if r ∈ acc then acc else acc ++ [r]) acc ↔
        x ∈ acc ∨ x ∈ l := by
  intro l
  induction l with
  | nil => intro acc x; simp
  | cons a l ih =>
      intro acc x
      simp only [List.foldl_cons]
      by_cases ha : a ∈ acc
      · rw [if_pos ha, ih]
        constructor
        · rintro (h | h)
          · exact Or.inl h
          · exact Or.inr (List.mem_cons_of_mem a h)
        · rintro (h | h)
          · exact Or.inl h
          · rcases List.mem_cons.mp h with h | h
            · exact Or.inl (h ▸ ha)
            · exact Or.inr h
      · rw [if_neg ha, ih]
        simp only [List.mem_append, List.mem_singleton, List.mem_cons]
        tauto

theorem mem_firstOccurrences {α : Type} [DecidableEq α] (l : List α) (x : α) :
    x ∈ firstOccurrences l ↔ x ∈ l := by
  unfold firstOccurrences
  rw [mem_foldl_firstOcc]
  simp

theorem nodup_foldl_firstOcc {α : Type} [DecidableEq α] :
    ∀ (l : List α) (acc : List α), acc.Nodup →
      (l.foldl (fun acc r => if r ∈ acc then acc else acc ++ [r]) acc).Nodup := by
  intro l
  induction l with
  | nil => intro acc h; exact h
  | cons a l ih =>
      intro acc h
      simp only [List.foldl_cons]
      by_cases ha : a ∈ acc
      · rw [if_pos ha]; exact ih acc h
      · rw [if_neg ha]
        refine ih _ ?_
        simpa [List.nodup_append] using ⟨h, ha⟩

theorem nodup_firstOccurrences {α : Type} [DecidableEq α] (l : List α) :
    (firstOccurrences l).Nodup :=
  nodup_foldl_firstOcc l [] List.nodup_nil

theorem firstOccurrences_append {α : Type} [DecidableEq α] (l : List α) (r : α) :
    firstOccurrences (l ++ [r])
      = if r ∈ firstOccurrences l then firstOccurrences l
        else firstOccurrences l ++ [r] := by
  unfold firstOccurrences
  rw [List.foldl_append]
  simp only [List.foldl_cons, List.foldl_nil]

theorem firstOccurrences_append_mem {α : Type} [DecidableEq α] (l : List α) (r : α)
    (hr : r ∈ l) : firstOccurrences (l ++ [r]) = firstOccurrences l := by
  rw [firstOccurrences_append, if_pos ((mem_firstOccurrences l r).mpr hr)]

theorem firstOccurrences_append_not_mem {α : Type} [DecidableEq α] (l : List α) (r : α)
    (hr : r ∉ l) : firstOccurrences (l ++ [r]) = firstOccurrences l ++ [r] := by
  rw [firstOccurrences_append, if_neg (fun h => hr ((mem_firstOccurrences l r).mp h))]

/-- The counting loop computes, in first-occurrence order, the number of
occurrences of each distinct element. -/
theorem countsOf_eq {α : Type} [DecidableEq α] (l : List α) :
    countsOf l = (firstOccurrences l).map (fun k => (k, l.count k)) := by
  induction l using List.reverseRecOn with
  | nil => rfl
  | append_singleton l r ih =>
      have hstep : countsOf (l ++ [r])
          = mapSet (countsOf l) r (mapGetD (countsOf l) r 0 + 1) := by
        unfold countsOf
        rw [List.foldl_append]
        rfl
      by_cases hr : r ∈ l
      · have hget : mapGet ((firstOccurrences l).map (fun k => (k, l.count k))) r
            = some (l.count r) :=
          mapGet_map_of_mem _ _ _ ((mem_firstOccurrences l r).mpr hr)
        rw [hstep, ih, firstOccurrences_append_mem l r hr]
        rw [mapSet_map_nodup _ _ _ _ (nodup_firstOccurrences l)
          ((mem_firstOccurrences l r).mpr hr)]
        refine List.map_congr_left ?_
        intro k hk
        by_cases hkr : k = r
        · subst hkr
          simp [List.count_append, mapGetD, hget]
        · simp only [if_neg hkr]
          have hck : (l ++ [r]).count k = l.count k := by
            simp [List.count_append, List.count_singleton]
            intro h
            exact absurd h.symm hkr
          rw [hck]
      · have hget : mapGet ((firstOccurrences l).map (fun k => (k, l.count k))) r
            = none :=
          mapGet_map_of_not_mem _ _ _ (fun h => hr ((mem_firstOccurrences l r).mp h))
        have h0 : l.count r = 0 := List.count_eq_zero.mpr hr
        rw [hstep, ih, firstOccurrences_append_not_mem l r hr,
          mapSet_of_get_none _ _ _ hget]
        rw [List.map_append]
        congr 1
        · refine List.map_congr_left ?_
          intro k hk
          have hk' : k ∈ l := (mem_firstOccurrences l k).mp hk
          have hkr : k ≠ r := fun h => hr (h ▸ hk')
          have hck : (l ++ [r]).count k = l.count k := by
            simp [List.count_append, List.count_singleton]
            intro h
            exact absurd h.symm hkr
          rw [hck]
        · have hc1 : (l ++ [r]).count r = 1 := by
            simp [List.count_append, h0]
          simp [mapGetD, hget, hc1, h0]

/-- The maximum-search loop of `applyConsensus`:
`if (count > maxCount) { maxCount = count; consensusResult = key }`,
starting from `maxCount = 0`, `consensusResult = null`. -/
theorem foldl_scan_eq_pick {α : Type} :
    ∀ (rest : List (α × ℕ)) (b : α × ℕ),
      rest.foldl (fun acc e => if e.2 > acc.1 then (e.2, some e.1) else acc)
          (b.2, some b.1)
        = ((rest.foldl (pickBetter Prod.snd) b).2,
            some (rest.foldl (pickBetter Prod.snd) b).1) := by
  intro rest
  induction rest with
  | nil => intro b; rfl
  | cons e rest ih =>
      intro b
      simp only [List.foldl_cons]
      have hstep : (if e.2 > b.2 then (e.2, some e.1) else (b.2, some b.1))
          = ((pickBetter Prod.snd b e).2, some (pickBetter Prod.snd b e).1) := by
        unfold pickBetter
        by_cases h : e.2 > b.2
        · simp [h]
        · simp [h]
      rw [hstep]
      exact ih _

theorem scan_eq_argmaxFirst {α : Type} (counts : List (α × ℕ)) (e : α × ℕ)
    (rest : List (α × ℕ)) (hc : counts = e :: rest) (hpos : 0 < e.2) :
    ∃ w, argmaxFirst Prod.snd counts = some w ∧
      counts.foldl (fun acc x => if x.2 > acc.1 then (x.2, some x.1) else acc)
          ((0 : ℕ), (none : Option α)) = (w.2, some w.1) := by
  subst hc
  refine ⟨rest.foldl (pickBetter Prod.snd) e, rfl, ?_⟩
  simp only [List.foldl_cons]
  rw [if_pos (by simpa using hpos)]
  exact foldl_scan_eq_pick rest e

/-! ## `AdvancedSwarmConsensus` data model
(`core-swarm-engine/coordination/AdvancedSwarmConsensus.ts`) -/

structure AgentBid where
  agentId : String
  taskId : String
  confidence : ℚ
  expertise : ℚ
  culturalRelevance : ℚ
  estimatedTime : ℚ
  resourceCost : ℚ
deriving DecidableEq

/-- Structure `ConsensusResult` (the `culturalAdaptations` record is an
external-integration stub of string lookups and is not needed by any claim;
the three fields below are the contract under verification). -/
structure ConsensusResult where
  selectedAgent : String
  consensusScore : ℚ
  minorityReports : List String
deriving DecidableEq

structure SwarmDecision where
  taskId : String
  decision : Option String
  confidence : ℚ
  participatingAgents : List String
  culturalContext : String
deriving DecidableEq

/-- A proposal for `expertiseWeightedVoting`; the `any` payload is embedded
as an opaque `String`. -/
structure Proposal where
  agentId : String
  proposal : String
  confidence : ℚ
deriving DecidableEq

/-- The private fields of the `AdvancedSwarmConsensus` class. -/
structure ConsensusState where
  consensusThreshold : ℚ
  culturalWeights : List (String × ℚ)
  agentExpertise : List (String × ℚ)
  decisionHistory : List SwarmDecision
deriving DecidableEq

/-- The constructor (`threshold: number = 0.7`). -/
def initConsensus (threshold : ℚ) : ConsensusState :=
  { consensusThreshold := threshold
    culturalWeights := []
    agentExpertise := []
    decisionHistory := [] }

/-- Private helper `calculateCompositeScore`.  The method only reads state;
divisions are exact on `ℚ` (see `calculateCompositeScoreChecked` for the
division-safety analysis). -/
def calculateCompositeScore (st : ConsensusState) (bid : AgentBid)
    (culturalContext : String) : ℚ :=
  let culturalBonus := mapGetD st.culturalWeights culturalContext 1
  let expertiseBonus := mapGetD st.agentExpertise bid.agentId 0.5
  bid.confidence * 0.3 +
    bid.expertise * 0.25 +
    bid.culturalRelevance * 0.2 * culturalBonus +
    (1 / bid.estimatedTime) * 0.15 +
    (1 / bid.resourceCost) * 0.1 +
    expertiseBonus * 0.1

/-- Variant of `calculateCompositeScore` with each JS division embedded through
`jsDiv`, so that a zero `estimatedTime`/`resourceCost` (a non-finite JS
result) surfaces as `none`. -/
def calculateCompositeScoreChecked (st : ConsensusState) (bid : AgentBid)
    (culturalContext : String) : Option ℚ := do
  let culturalBonus := mapGetD st.culturalWeights culturalContext 1
  let expertiseBonus := mapGetD st.agentExpertise bid.agentId 0.5
  let invTime ← jsDiv 1 bid.estimatedTime
  let invCost ← jsDiv 1 bid.resourceCost
  pure (bid.confidence * 0.3 +
    bid.expertise * 0.25 +
    bid.culturalRelevance * 0.2 * culturalBonus +
    invTime * 0.15 +
    invCost * 0.1 +
    expertiseBonus * 0.1)

/-- Private helper `validateConsensus`, applied to the score-sorted bids. -/
def validateConsensus (st : ConsensusState) (bids : List (AgentBid × ℚ))
    (culturalContext : String) : ℚ :=
  if bids.isEmpty then 0
  else
    let topScore := ((bids.get? 0).map Prod.snd).getD 0
    let secondScore := ((bids.get? 1).map Prod.snd).getD 0
    let scoreGap := topScore - secondScore
    let culturalAlignment := mapGetD st.culturalWeights culturalContext 1
    min (scoreGap * culturalAlignment) 1

/-- A minority report line
`` `Agent ${bid.agentId}: Alternative approach with ${bid.confidence} confidence` ``. -/
def renderMinorityReport (bid : AgentBid × ℚ) : String :=
  let a := bid.1.agentId
  let c := bid.1.confidence
  s!"Agent {a}: Alternative approach with {c} confidence"

/-- Method `auctionBasedAllocation`.  The method never writes any class field, so
it is embedded as a pure function of the state.  The JS stable sort by
descending `compositeScore` is `insertionSort (descBy Prod.snd)`. -/
def auctionBasedAllocation (st : ConsensusState) (taskId : String)
    (bids : List AgentBid) (culturalContext : String) : ConsensusResult :=
  if bids.isEmpty then
    { selectedAgent := "default", consensusScore := 0, minorityReports := [] }
  else
    let scoredBids := bids.map (fun bid => (bid, calculateCompositeScore st bid culturalContext))
    let sorted := scoredBids.insertionSort (descBy Prod.snd)
    let topBid := sorted.head?
    let consensusScore := validateConsensus st sorted culturalContext
    let minorityReports :=
      (((sorted.drop 1).take 3).filter (fun bid => decide ((0.6 : ℚ) < bid.2))).map
        renderMinorityReport
    { selectedAgent := ((topBid.map (fun b => b.1.agentId)).getD "default")
      consensusScore := consensusScore
      minorityReports := minorityReports }

/-- The per-proposal weight of `expertiseWeightedVoting`:
`expertise · culturalWeight · confidence` with defaults `0.5` / `1.0`. -/
def voteWeight (st : ConsensusState) (culturalContext : String) (p : Proposal) : ℚ :=
  (mapGetD st.agentExpertise p.agentId 0.5) *
    (mapGetD st.culturalWeights culturalContext 1) * p.confidence

/-- Method `expertiseWeightedVoting`.  `Date.now()` is passed in as `now`.  The
`votes` JS `Map` deduplicates proposals by `agentId` (later proposals
overwrite the weight, insertion order is kept); the returned decision is
pushed onto `decisionHistory`, the only state write of the method. -/
def expertiseWeightedVoting (st : ConsensusState) (proposals : List Proposal)
    (culturalContext : String) (now : ℕ) : SwarmDecision × ConsensusState :=
  if proposals.isEmpty then
    ({ taskId := s!"decision_{now}"
       decision := none
       confidence := 0
       participatingAgents := []
       culturalContext := culturalContext }, st)
  else
    let votes := proposals.foldl
      (fun m p => mapSet m p.agentId (voteWeight st culturalContext p)) []
    let totalWeight := (votes.map Prod.snd).sum
    let sortedVotes := votes.insertionSort (descBy Prod.snd)
    let winner := sortedVotes.head?.getD ("", 0)
    let consensusStrength := if 0 < totalWeight then winner.2 / totalWeight else 0
    let decision : SwarmDecision :=
      { taskId := s!"decision_{now}"
        decision := (proposals.find? (fun p => p.agentId == winner.1)).map Proposal.proposal
        confidence := consensusStrength
        participatingAgents := proposals.map Proposal.agentId
        culturalContext := culturalContext }
    (decision, { st with decisionHistory := st.decisionHistory ++ [decision] })

/-- Expert ranking score used by `selectTopExpert(s)`: note the source
defaults a missing expertise entry to `0` here (`|| 0`), unlike the `0.5`
default (`|| 0.5`) used everywhere else in the class. -/
def expertScore (st : ConsensusState) (culturalContext : String) (agent : String) : ℚ :=
  (mapGetD st.agentExpertise agent 0) * (mapGetD st.culturalWeights culturalContext 1)

/-- Private `selectTopExpert`: `agents.reduce(...)` with no initial value,
which throws a `TypeError` on an empty array (embedded as `none`). -/
def selectTopExpert (st : ConsensusState) (agents : List String)
    (culturalContext : String) : Option String :=
  match agents with
  | [] => none
  | a :: rest =>
      some (rest.foldl
        (fun best current =>
          if expertScore st culturalContext current > expertScore st culturalContext best
          then current else best) a)

/-- Private `selectTopExperts`: stable descending sort by the expert score,
then `slice(0, count)`. -/
def selectTopExperts (st : ConsensusState) (agents : List String)
    (culturalContext : String) (count : ℕ) : List String :=
  ((((agents.map (fun agent => (agent, expertScore st culturalContext agent))).insertionSort
      (descBy Prod.snd)).take count).map Prod.fst)

inductive TaskComplexity
  | simple
  | moderate
  | complex
deriving DecidableEq

structure AdaptiveResult where
  method : String
  threshold : ℚ
  participants : List String
deriving DecidableEq

/-- Method `adaptiveConsensus`; `none` models the `TypeError` thrown by
`selectTopExpert` on an empty agent list. -/
def adaptiveConsensus (st : ConsensusState) (taskComplexity : TaskComplexity)
    (agents : List String) (culturalContext : String) : Option AdaptiveResult :=
  match taskComplexity with
  | .simple =>
      (selectTopExpert st agents culturalContext).map
        (fun top => { method := "single_expert", threshold := 0.6, participants := [top] })
  | .moderate =>
      some { method := "expertise_weighted", threshold := 0.7
             participants := selectTopExperts st agents culturalContext 3 }
  | .complex =>
      some { method := "full_swarm_consensus", threshold := 0.8, participants := agents }

/-- Public `updateAgentExpertise`: exponential moving average clamped to
`[0.1, 1.0]`; one of the two mutators of the learned maps. -/
def updateAgentExpertise (st : ConsensusState) (agentId : String)
    (performance : ℚ) : ConsensusState :=
  let current := mapGetD st.agentExpertise agentId 0.5
  let updated := current * 0.8 + performance * 0.2
  { st with agentExpertise := mapSet st.agentExpertise agentId (max 0.1 (min 1 updated)) }

/-- Public `updateCulturalWeights`: exponential moving average clamped to
`[0.5, 2.0]`; the other mutator of the learned maps. -/
def updateCulturalWeights (st : ConsensusState) (context : String)
    (effectiveness : ℚ) : ConsensusState :=
  let current := mapGetD st.culturalWeights context 1
  let updated := current * 0.9 + effectiveness * 0.1
  { st with culturalWeights := mapSet st.culturalWeights context (max 0.5 (min 2 updated)) }

structure ConsensusMetrics where
  totalDecisions : ℕ
  averageConfidence : Option ℚ
  culturalCoverage : ℕ
deriving DecidableEq

/-- Method `getConsensusMetrics`, read-only.  `averageConfidence` divides the summed
confidence by `decisionHistory.length` with no guard; on an empty history the
JS result is `0/0 = NaN`, surfaced here as `none` through `jsDiv`. -/
def getConsensusMetrics (st : ConsensusState) : ConsensusMetrics :=
  let totalDecisions := st.decisionHistory.length
  { totalDecisions := totalDecisions
    averageConfidence :=
      jsDiv ((st.decisionHistory.map SwarmDecision.confidence).sum) (totalDecisions : ℚ)
    culturalCoverage := ((st.decisionHistory.map SwarmDecision.culturalContext).dedup).length }

/-- The state-mutating operations of the engine.  `auctionBasedAllocation`,
`adaptiveConsensus`, `peerReviewConsensus` and `getConsensusMetrics` perform
no state writes (their embeddings above return no state), so a run of the
engine is a fold of these three operations. -/
inductive EngineOp
  | updExpertise (agentId : String) (performance : ℚ)
  | updCultural (context : String) (effectiveness : ℚ)
  | vote (proposals : List Proposal) (culturalContext : String) (now : ℕ)

def applyEngineOp (st : ConsensusState) : EngineOp → ConsensusState
  | .updExpertise agentId performance => updateAgentExpertise st agentId performance
  | .updCultural context effectiveness => updateCulturalWeights st context effectiveness
  | .vote proposals culturalContext now =>
      (expertiseWeightedVoting st proposals culturalContext now).2

def runEngineOps (st : ConsensusState) (ops : List EngineOp) : ConsensusState :=
  ops.foldl applyEngineOp st

/-! ## SwarmManager consensus and intelligent selection
(code of `applyConsensus` / `selectIntelligently` as published in
`SWARM_INTELLIGENCE_TECHNICAL_DOCUMENTATION.md` and
`SWARM_MANAGER_RECENT_IMPROVEMENTS.md`) -/

structure ConsensusOutcome (α : Type) where
  decision : Option α
  agreementLevel : ℚ
  confidence : ℚ
  dissentingOpinions : List α

/-- Method `applyConsensus(results, task)` over an arbitrary result type `α`;
`JSON.stringify` is embedded as equality on `α` (injective canonical
serialization), `JSON.parse` of a serialized winner as the winner itself.
The thrown error on zero results is `Except.error`. -/
def applyConsensus {α : Type} [DecidableEq α] (results : List α) :
    Except String (ConsensusOutcome α) :=
  if results.length = 0 then
    .error "No results to apply consensus to"
  else if results.length = 1 then
    .ok { decision := results.head?, agreementLevel := 1, confidence := 1
          dissentingOpinions := [] }
  else
    let resultCounts := countsOf results
    let scan := resultCounts.foldl
      (fun acc e => if e.2 > acc.1 then (e.2, some e.1) else acc)
      ((0 : ℕ), (none : Option α))
    let maxCount := scan.1
    let consensusResult := scan.2
    let agreementLevel := (maxCount : ℚ) / (results.length : ℚ)
    .ok { decision := consensusResult
          agreementLevel := agreementLevel
          confidence := agreementLevel
          dissentingOpinions := results.filter (fun r => decide (some r ≠ consensusResult)) }

structure PerformanceRecord where
  accuracy : ℚ
  completionTime : ℚ
deriving DecidableEq

structure AgentInfo where
  availableCapabilities : List String
  performanceHistory : List PerformanceRecord
  trustScore : ℚ
deriving DecidableEq

structure NetworkInfo where
  centrality : ℚ
deriving DecidableEq

structure SwarmTask where
  requiredCapabilities : List String
deriving DecidableEq

/-- The registries of the SwarmManager that `selectIntelligently` reads. -/
structure ManagerState where
  agents : List (String × AgentInfo)
  agentNetworks : List (String × NetworkInfo)

/-- The per-agent score computed in the body of `selectIntelligently`'s
loop: capability match (0–40 points), performance history (0–30 points:
accuracy up to 20 and speed up to 10, both 0 when the history is empty),
network centrality (0–20 points) and trust (0–10 points).
The capability term divides by `task.requiredCapabilities.length` through
`jsDiv`: on an empty requirement list the JS source computes `0/0 = NaN`,
which poisons the whole sum, so the result is `none` exactly then (all the
other divisions have nonzero divisors: the performance averages are guarded
by `recentPerformance.length > 0`, and `10`/`1000`/`100` are constants). -/
def intelligentScore (task : SwarmTask) (agent : AgentInfo) (network : NetworkInfo) :
    Option ℚ :=
  let capabilityMatches :=
    (task.requiredCapabilities.filter (fun cap => agent.availableCapabilities.contains cap)).length
  let recentPerformance :=
    agent.performanceHistory.drop (agent.performanceHistory.length - 10)
  let perfScore :=
    if 0 < recentPerformance.length then
      let avgAccuracy :=
        (recentPerformance.map PerformanceRecord.accuracy).sum / (recentPerformance.length : ℚ)
      let avgCompletionTime :=
        (recentPerformance.map PerformanceRecord.completionTime).sum / (recentPerformance.length : ℚ)
      (avgAccuracy / 10) * 20 + max 0 (10 - avgCompletionTime / 1000)
    else 0
  (jsDiv (capabilityMatches : ℚ) (task.requiredCapabilities.length : ℚ)).map
    (fun capRatio =>
      capRatio * 40 + perfScore + network.centrality * 20 + (agent.trustScore / 100) * 10)

/-- The finite score `selectIntelligently` assigns to a registered agent id
(meaningful when `task.requiredCapabilities` is non-empty, where
`intelligentScore` is `some` of this value). -/
def agentScoreOf (mgr : ManagerState) (task : SwarmTask) (agentId : String) : ℚ :=
  (intelligentScore task
    ((mapGet mgr.agents agentId).getD { availableCapabilities := []
                                        performanceHistory := [], trustScore := 0 })
    ((mapGet mgr.agentNetworks agentId).getD { centrality := 0 })).getD 0

/-- The JS initialization `scores.get(agents[0]) || 0`: `0` both for a
missing key (`undefined`, outer `none`) and for a `NaN` score (inner
`none`, `NaN` is falsy); a present finite score is returned unchanged
(a present `0` is falsy but `0 || 0 = 0` anyway). -/
def jsNumOrZero : Option (Option ℚ) → ℚ
  | some (some s) => s
  | _ => 0

/-- Method `selectIntelligently(agents, task)`: throws on an empty agent
list; agents missing from either registry are skipped (`continue`); then a
strict maximum scan over the scores `Map`, initialized with `agents[0]` and
`scores.get(agents[0]) || 0`.  A `NaN` score (`none`) fails the JS
comparison `score > maxScore`, so the scan skips it — with an empty
requirement list every score is `NaN` and `agents[0]` is returned.
(`maxScore` itself is always a finite number: it starts from `|| 0` and is
only ever replaced by a score that won a `>` comparison.) -/
def selectIntelligently (mgr : ManagerState) (task : SwarmTask)
    (agents : List String) : Except String String :=
  match agents with
  | [] => .error "No agents provided"
  | a0 :: _ =>
      let scores := agents.foldl
        (fun m agentId =>
          match mapGet mgr.agents agentId, mapGet mgr.agentNetworks agentId with
          | some agent, some network => mapSet m agentId (intelligentScore task agent network)
          | _, _ => m) ([] : List (String × Option ℚ))
      let best := scores.foldl
        (fun acc e =>
          match e.2 with
          | some s => if s > acc.2 then (e.1, s) else acc
          | none => acc)
        (a0, jsNumOrZero (mapGet scores a0))
      .ok best.1

/-! ## Specification-side formulas

These definitions transcribe formulas exactly as the specification / claims
state them, to be compared against the embedded source code. -/

/-- The composite-score formula as the spec states it (§4.3):
`0.30·confidence + 0.25·expertise + 0.20·culturalRelevance·culturalWeight +
 0.15·(1/estimatedTime) + 0.10·(1/resourceCost) + 0.10·agentExpertise`,
with `culturalWeight` defaulting to `1.0` and `agentExpertise` to `0.5`. -/
def claimCompositeScore (st : ConsensusState) (culturalContext : String) (b : AgentBid) : ℚ :=
  0.30 * b.confidence + 0.25 * b.expertise +
    0.20 * b.culturalRelevance * (mapGetD st.culturalWeights culturalContext 1) +
    0.15 * (1 / b.estimatedTime) + 0.10 * (1 / b.resourceCost) +
    0.10 * (mapGetD st.agentExpertise b.agentId 0.5)

theorem claimCompositeScore_eq_code (st : ConsensusState) (culturalContext : String)
    (b : AgentBid) :
    claimCompositeScore st culturalContext b = calculateCompositeScore st b culturalContext := by
  unfold claimCompositeScore calculateCompositeScore
  ring

/-- The expert-ranking score as the claim states it:
`agentExpertise(id)·culturalWeight(context)` **with the expertise default
read as 0.5** for agents not yet in the learned table (the source's
`selectTopExpert`/`selectTopExperts` actually default to 0, see
`expertScore`). -/
def claimExpertScore (st : ConsensusState) (culturalContext : String) (agent : String) : ℚ :=
  (mapGetD st.agentExpertise agent 0.5) * (mapGetD st.culturalWeights culturalContext 1)

/-- The voting confidence as the claim states it: the per-proposal weights
are `agentExpertise·culturalWeight·confidence`, the winner is the
max-weight proposal (earliest on ties), and the confidence is the winner's
weight over the sum of **all** per-proposal weights (0 when the total is
0). -/
def claimVoteConfidence (st : ConsensusState) (culturalContext : String)
    (proposals : List Proposal) : ℚ :=
  match argmaxFirst (voteWeight st culturalContext) proposals with
  | none => 0
  | some w =>
      let total := (proposals.map (voteWeight st culturalContext)).sum
      if total = 0 then 0 else voteWeight st culturalContext w / total

/-- The intelligent-selection score as the claim states it:
`0.40·(capabilityMatches/requiredCount) + 0.20·(avgAccuracy/10) +
 0.10·max(0, 10 − avgCompletionTime/1000) + 0.20·networkCentrality +
 0.10·(trustScore/100)`, the two performance terms contributing 0 when the
history is empty.  (The source's speed term has relative weight 10 of 100
points, i.e. coefficient 0.01 on this normalized scale, not 0.10 — see
`intelligentScore`.) -/
def claimIntelligentScore (task : SwarmTask) (agent : AgentInfo)
    (network : NetworkInfo) : ℚ :=
  let capabilityMatches :=
    (task.requiredCapabilities.filter (fun cap => agent.availableCapabilities.contains cap)).length
  let recentPerformance :=
    agent.performanceHistory.drop (agent.performanceHistory.length - 10)
  let perfTerms :=
    if 0 < recentPerformance.length then
      let avgAccuracy :=
        (recentPerformance.map PerformanceRecord.accuracy).sum / (recentPerformance.length : ℚ)
      let avgCompletionTime :=
        (recentPerformance.map PerformanceRecord.completionTime).sum / (recentPerformance.length : ℚ)
      0.20 * (avgAccuracy / 10) + 0.10 * max 0 (10 - avgCompletionTime / 1000)
    else 0
  0.40 * ((capabilityMatches : ℚ) / (task.requiredCapabilities.length : ℚ)) +
    perfTerms + 0.20 * network.centrality + 0.10 * (agent.trustScore / 100)

/-- The claim's score for a registered agent id. -/
def claimAgentScoreOf (mgr : ManagerState) (task : SwarmTask) (agentId : String) : ℚ :=
  claimIntelligentScore task
    ((mapGet mgr.agents agentId).getD { availableCapabilities := []
                                        performanceHistory := [], trustScore := 0 })
    ((mapGet mgr.agentNetworks agentId).getD { centrality := 0 })

/-! ## Claim theorems -/

/-- C8: `auctionBasedAllocation` on an empty bid list returns exactly the
sentinel `{selectedAgent: "default", consensusScore: 0, minorityReports: []}`;
the method performs no state write (its embedding is a pure function of the
state) and, being total, cannot throw. -/
theorem auction_empty_bids_sentinel (st : ConsensusState) (taskId : String)
    (culturalContext : String) :
    auctionBasedAllocation st taskId [] culturalContext
      = { selectedAgent := "default", consensusScore := 0, minorityReports := [] } := rfl

/-- C5 (code bug): with an empty `decisionHistory` the source computes
`averageConfidence = 0/0`, which is `NaN` in JS (`none` in this embedding),
not the guarded `0` the spec requires. -/
theorem metrics_empty_history_not_guarded (threshold : ℚ) :
    (getConsensusMetrics (initConsensus threshold)).averageConfidence = none ∧
      (getConsensusMetrics (initConsensus threshold)).totalDecisions = 0 := ⟨rfl, rfl⟩

/-- C9: on an empty agents list, `adaptiveConsensus` throws for
`'simple'` (the `reduce` of `selectTopExpert` has no initial element), but
returns normally with `participants = []` for `'moderate'` and
`'complex'`. -/
theorem adaptive_consensus_empty_agents (st : ConsensusState) (culturalContext : String) :
    adaptiveConsensus st .simple [] culturalContext = none ∧
      adaptiveConsensus st .moderate [] culturalContext
        = some { method := "expertise_weighted", threshold := 0.7, participants := [] } ∧
      adaptiveConsensus st .complex [] culturalContext
        = some { method := "full_swarm_consensus", threshold := 0.8, participants := [] } :=
  ⟨rfl, rfl, rfl⟩

/-- C10: when every division of the composite score has a positive
divisor (`estimatedTime > 0`, `resourceCost > 0`), the checked computation
performs no division by zero and agrees with the total formula. -/
theorem composite_score_division_safe (st : ConsensusState) (bid : AgentBid)
    (culturalContext : String) (ht : 0 < bid.estimatedTime) (hc : 0 < bid.resourceCost) :
    calculateCompositeScoreChecked st bid culturalContext
      = some (calculateCompositeScore st bid culturalContext) := by
  unfold calculateCompositeScoreChecked calculateCompositeScore jsDiv
  rw [if_neg ht.ne', if_neg hc.ne']
  rfl

theorem composite_score_division_safe_witness :
    (0 < (2 : ℚ) ∧ 0 < (4 : ℚ)) ∧
      calculateCompositeScoreChecked (initConsensus 0.7)
          { agentId := "A", taskId := "t", confidence := 0.9, expertise := 0.8
            culturalRelevance := 0.5, estimatedTime := 2, resourceCost := 4 } "ctx"
        = some (calculateCompositeScore (initConsensus 0.7)
          { agentId := "A", taskId := "t", confidence := 0.9, expertise := 0.8
            culturalRelevance := 0.5, estimatedTime := 2, resourceCost := 4 } "ctx") :=
  ⟨⟨by norm_num, by norm_num⟩,
    composite_score_division_safe _ _ _ (by norm_num) (by norm_num)⟩

theorem mem_mapSet {κ β : Type} [DecidableEq κ] :
    ∀ (m : List (κ × β)) (k : κ) (v : β) (kv : κ × β),
      kv ∈ mapSet m k v → kv = (k, v) ∨ kv ∈ m := by
  intro m
  induction m with
  | nil =>
      intro k v kv h
      simp [mapSet] at h
      exact Or.inl h
  | cons e m ih =>
      intro k v kv h
      obtain ⟨a, b⟩ := e
      by_cases hak : a = k
      · subst hak
        simp only [mapSet, if_pos rfl] at h
        rcases List.mem_cons.mp h with h | h
        · exact Or.inl h
        · exact Or.inr (List.mem_cons_of_mem _ h)
      · simp only [mapSet, if_neg hak] at h
        rcases List.mem_cons.mp h with h | h
        · exact Or.inr (h ▸ List.mem_cons_self _ _)
        · rcases ih k v kv h with h | h
          · exact Or.inl h
          · exact Or.inr (List.mem_cons_of_mem _ h)

theorem mapGet_mem {κ β : Type} [DecidableEq κ] :
    ∀ (m : List (κ × β)) (k : κ) (v : β), mapGet m k = some v → (k, v) ∈ m := by
  intro m
  induction m with
  | nil => intro k v h; cases h
  | cons e m ih =>
      intro k v h
      obtain ⟨a, b⟩ := e
      by_cases hak : a = k
      · subst hak
        have hbv : b = v := by simpa [mapGet] using h
        subst hbv
        exact List.mem_cons_self _ _
      · simp only [mapGet, if_neg hak] at h
        exact List.mem_cons_of_mem _ (ih k v h)

theorem clamp_mem_Icc {lo hi x : ℚ} (h : lo ≤ hi) :
    lo ≤ max lo (min hi x) ∧ max lo (min hi x) ≤ hi :=
  ⟨le_max_left lo _, max_le h (min_le_left hi x)⟩

/-- Method `expertiseWeightedVoting` writes only `decisionHistory`. -/
theorem voting_preserves_maps (st : ConsensusState) (proposals : List Proposal)
    (culturalContext : String) (now : ℕ) :
    ((expertiseWeightedVoting st proposals culturalContext now).2).agentExpertise
        = st.agentExpertise ∧
      ((expertiseWeightedVoting st proposals culturalContext now).2).culturalWeights
        = st.culturalWeights := by
  unfold expertiseWeightedVoting
  by_cases h : proposals.isEmpty <;> simp [h]

/-- The range invariant on the learned maps, preserved by every engine
operation. -/
def LearnedMapsInRange (st : ConsensusState) : Prop :=
  (∀ kv ∈ st.agentExpertise, 0.1 ≤ kv.2 ∧ kv.2 ≤ 1) ∧
    (∀ kv ∈ st.culturalWeights, 0.5 ≤ kv.2 ∧ kv.2 ≤ 2)

theorem applyEngineOp_preserves_range (st : ConsensusState) (op : EngineOp)
    (h : LearnedMapsInRange st) : LearnedMapsInRange (applyEngineOp st op) := by
  obtain ⟨hA, hC⟩ := h
  cases op with
  | updExpertise agentId performance =>
      refine ⟨?_, hC⟩
      intro kv hkv
      rcases mem_mapSet _ _ _ kv hkv with hkv | hkv
      · rw [hkv]
        exact clamp_mem_Icc (by norm_num)
      · exact hA kv hkv
  | updCultural context effectiveness =>
      refine ⟨hA, ?_⟩
      intro kv hkv
      rcases mem_mapSet _ _ _ kv hkv with hkv | hkv
      · rw [hkv]
        exact clamp_mem_Icc (by norm_num)
      · exact hC kv hkv
  | vote proposals culturalContext now =>
      obtain ⟨he, hc⟩ := voting_preserves_maps st proposals culturalContext now
      exact ⟨by rw [applyEngineOp, he]; exact hA, by rw [applyEngineOp, hc]; exact hC⟩

theorem runEngineOps_range (ops : List EngineOp) :
    ∀ (st : ConsensusState), LearnedMapsInRange st →
      LearnedMapsInRange (runEngineOps st ops) := by
  induction ops with
  | nil => intro st h; exact h
  | cons op ops ih =>
      intro st h
      exact ih _ (applyEngineOp_preserves_range st op h)

/-- C7: the value stored by `updateAgentExpertise` always lies in
`[0.1, 1.0]` and the value stored by `updateCulturalWeights` always lies in
`[0.5, 2.0]`, for every prior state and every (rational) input; and since
these are the only map mutators, after any sequence of engine operations
from a fresh engine every entry of `agentExpertise` lies in `[0.1, 1.0]`
and every entry of `culturalWeights` lies in `[0.5, 2.0]`. -/
theorem learned_maps_bounds :
    (∀ (st : ConsensusState) (agentId : String) (performance : ℚ), ∃ v,
      mapGet (updateAgentExpertise st agentId performance).agentExpertise agentId = some v ∧
        0.1 ≤ v ∧ v ≤ 1) ∧
    (∀ (st : ConsensusState) (context : String) (effectiveness : ℚ), ∃ v,
      mapGet (updateCulturalWeights st context effectiveness).culturalWeights context = some v ∧
        0.5 ≤ v ∧ v ≤ 2) ∧
    (∀ (threshold : ℚ) (ops : List EngineOp) (k : String) (v : ℚ),
      mapGet (runEngineOps (initConsensus threshold) ops).agentExpertise k = some v →
        0.1 ≤ v ∧ v ≤ 1) ∧
    (∀ (threshold : ℚ) (ops : List EngineOp) (k : String) (v : ℚ),
      mapGet (runEngineOps (initConsensus threshold) ops).culturalWeights k = some v →
        0.5 ≤ v ∧ v ≤ 2) := by
  have hinit : ∀ threshold : ℚ, LearnedMapsInRange (initConsensus threshold) := by
    intro threshold
    unfold LearnedMapsInRange initConsensus
    constructor <;> (intro kv hkv; simp at hkv)
  refine ⟨?_, ?_, ?_, ?_⟩
  · intro st agentId performance
    refine ⟨max 0.1 (min 1 (mapGetD st.agentExpertise agentId 0.5 * 0.8 + performance * 0.2)),
      ?_, ?_⟩
    · exact mapGet_mapSet_self _ _ _
    · exact clamp_mem_Icc (by norm_num)
  · intro st context effectiveness
    refine ⟨max 0.5 (min 2 (mapGetD st.culturalWeights context 1 * 0.9 + effectiveness * 0.1)),
      ?_, ?_⟩
    · exact mapGet_mapSet_self _ _ _
    · exact clamp_mem_Icc (by norm_num)
  · intro threshold ops k v hget
    exact (runEngineOps_range ops _ (hinit threshold)).1 (k, v) (mapGet_mem _ _ _ hget)
  · intro threshold ops k v hget
    exact (runEngineOps_range ops _ (hinit threshold)).2 (k, v) (mapGet_mem _ _ _ hget)

theorem learned_maps_bounds_witness :
    mapGet (runEngineOps (initConsensus 0.7)
        [.updExpertise "A" 5, .updCultural "ctx" 9]).culturalWeights "ctx" = some 1.8 ∧
      (0.5 : ℚ) ≤ 1.8 ∧ (1.8 : ℚ) ≤ 2 := by
  have hget : mapGet (runEngineOps (initConsensus 0.7)
      [.updExpertise "A" 5, .updCultural "ctx" 9]).culturalWeights "ctx" = some 1.8 := by
    simp only [runEngineOps, List.foldl_cons, List.foldl_nil, applyEngineOp,
      updateAgentExpertise, updateCulturalWeights, initConsensus, mapGetD, mapGet, mapSet]
    norm_num [min_def, max_def]
  exact ⟨hget, learned_maps_bounds.2.2.2 0.7
    [.updExpertise "A" 5, .updCultural "ctx" 9] "ctx" 1.8 hget⟩

theorem auction_selectedAgent_eq (st : ConsensusState) (taskId : String)
    (bids : List AgentBid) (culturalContext : String) (hne : bids ≠ []) :
    (auctionBasedAllocation st taskId bids culturalContext).selectedAgent
      = ((((bids.map (fun bid => (bid, calculateCompositeScore st bid culturalContext))).insertionSort
            (descBy Prod.snd)).head?.map (fun b => b.1.agentId)).getD "default") := by
  unfold auctionBasedAllocation
  rw [if_neg (by simpa using hne)]

/-- C1: for every non-empty bid list, `auctionBasedAllocation` selects
the earliest bid (in input order) maximizing the composite score stated by
the spec's formula (`claimCompositeScore`): strictly larger than every
earlier bid's score, at least as large as every later bid's. -/
theorem auction_selects_max_composite (st : ConsensusState) (taskId : String)
    (bids : List AgentBid) (culturalContext : String) (hne : bids ≠ [])
    (hpos : ∀ b ∈ bids, 0 < b.estimatedTime ∧ 0 < b.resourceCost) :
    ∃ pre w post, bids = pre ++ w :: post ∧
      (auctionBasedAllocation st taskId bids culturalContext).selectedAgent = w.agentId ∧
      (∀ b ∈ pre, claimCompositeScore st culturalContext b
          < claimCompositeScore st culturalContext w) ∧
      (∀ b ∈ post, claimCompositeScore st culturalContext b
          ≤ claimCompositeScore st culturalContext w) := by
  obtain ⟨w, hw⟩ :=
    argmaxFirst_isSome (fun b => calculateCompositeScore st b culturalContext) bids hne
  obtain ⟨pre, post, heq, hpre, hpost⟩ :=
    argmaxFirst_split (fun b => calculateCompositeScore st b culturalContext) bids w hw
  refine ⟨pre, w, post, heq, ?_, ?_, ?_⟩
  · have hmap : argmaxFirst Prod.snd
        (bids.map (fun bid => (bid, calculateCompositeScore st bid culturalContext)))
        = some (w, calculateCompositeScore st w culturalContext) := by
      rw [argmaxFirst_map]
      rw [hw]
      rfl
    rw [auction_selectedAgent_eq st taskId bids culturalContext hne,
      head_insertionSort_descBy, hmap]
    rfl
  · intro b hb
    rw [claimCompositeScore_eq_code, claimCompositeScore_eq_code]
    exact hpre b hb
  · intro b hb
    rw [claimCompositeScore_eq_code, claimCompositeScore_eq_code]
    exact hpost b hb

def bidW1 : AgentBid :=
  { agentId := "A1", taskId := "t", confidence := 0.5, expertise := 0.5
    culturalRelevance := 0.5, estimatedTime := 1, resourceCost := 1 }

def bidW2 : AgentBid :=
  { agentId := "A2", taskId := "t", confidence := 0.9, expertise := 0.5
    culturalRelevance := 0.5, estimatedTime := 1, resourceCost := 1 }

theorem auction_selects_max_composite_witness :
    (([bidW1, bidW2] : List AgentBid) ≠ [] ∧
      (∀ b ∈ [bidW1, bidW2], 0 < b.estimatedTime ∧ 0 < b.resourceCost)) ∧
    (∃ pre w post, [bidW1, bidW2] = pre ++ w :: post ∧
      (auctionBasedAllocation (initConsensus 0.7) "t" [bidW1, bidW2] "ctx").selectedAgent
        = w.agentId ∧
      (∀ b ∈ pre, claimCompositeScore (initConsensus 0.7) "ctx" b
          < claimCompositeScore (initConsensus 0.7) "ctx" w) ∧
      (∀ b ∈ post, claimCompositeScore (initConsensus 0.7) "ctx" b
          ≤ claimCompositeScore (initConsensus 0.7) "ctx" w)) ∧
    (auctionBasedAllocation (initConsensus 0.7) "t" [bidW1, bidW2] "ctx").selectedAgent
      = "A2" :=
  ⟨⟨by decide, by norm_num [bidW1, bidW2]⟩,
    auction_selects_max_composite (initConsensus 0.7) "t" [bidW1, bidW2] "ctx"
      (by decide) (by norm_num [bidW1, bidW2]),
    by norm_num [auctionBasedAllocation, calculateCompositeScore, mapGetD, mapGet,
      initConsensus, bidW1, bidW2, List.insertionSort, List.orderedInsert, descBy]⟩

theorem selectTopExpert_eq_argmaxFirst (st : ConsensusState) (agents : List String)
    (culturalContext : String) :
    selectTopExpert st agents culturalContext
      = argmaxFirst (expertScore st culturalContext) agents := by
  cases agents <;> rfl

/-- C6 (amended): for every non-empty agents list, `adaptiveConsensus`
returns `{single_expert, 0.6, [top expert]}` for `'simple'`,
`{expertise_weighted, 0.7, top-3 experts}` for `'moderate'` and
`{full_swarm_consensus, 0.8, all agents}` for `'complex'`, where experts
are ranked by `agentExpertise(id)·culturalWeight(context)` descending with
`agentExpertise` read as `0` (not `0.5`, which the claim states) for agents
absent from the learned table. -/
theorem adaptive_consensus_strategies (st : ConsensusState) (agents : List String)
    (culturalContext : String) (hne : agents ≠ []) :
    (∃ pre w post, agents = pre ++ w :: post ∧
      adaptiveConsensus st .simple agents culturalContext
        = some { method := "single_expert", threshold := 0.6, participants := [w] } ∧
      (∀ a ∈ pre, expertScore st culturalContext a < expertScore st culturalContext w) ∧
      (∀ a ∈ post, expertScore st culturalContext a ≤ expertScore st culturalContext w)) ∧
    (∃ r, adaptiveConsensus st .moderate agents culturalContext = some r ∧
      r.method = "expertise_weighted" ∧ r.threshold = 0.7 ∧
      r.participants.length = min 3 agents.length ∧
      (∀ p ∈ r.participants, p ∈ agents) ∧
      (∀ a ∈ agents, a ∉ r.participants → ∀ p ∈ r.participants,
        expertScore st culturalContext a ≤ expertScore st culturalContext p)) ∧
    adaptiveConsensus st .complex agents culturalContext
      = some { method := "full_swarm_consensus", threshold := 0.8, participants := agents } := by
  set f := expertScore st culturalContext with hf
  set g : String → String × ℚ := fun a => (a, f a) with hg
  set sorted := (agents.map g).insertionSort (descBy Prod.snd) with hsorted_def
  have hperm : sorted.Perm (agents.map g) := List.perm_insertionSort _ _
  have hsnd : ∀ e ∈ sorted, e.2 = f e.1 := by
    intro e he
    have : e ∈ agents.map g := hperm.mem_iff.mp he
    obtain ⟨a, _, ha⟩ := List.mem_map.mp this
    rw [← ha]
  have hmem_agents : ∀ e ∈ sorted, e.1 ∈ agents := by
    intro e he
    have : e ∈ agents.map g := hperm.mem_iff.mp he
    obtain ⟨a, haa, ha⟩ := List.mem_map.mp this
    rw [← ha]
    exact haa
  refine ⟨?_, ?_, rfl⟩
  · obtain ⟨w, hw⟩ := argmaxFirst_isSome f agents hne
    obtain ⟨pre, post, heq, hpre, hpost⟩ := argmaxFirst_split f agents w hw
    refine ⟨pre, w, post, heq, ?_, hpre, hpost⟩
    simp [adaptiveConsensus, selectTopExpert_eq_argmaxFirst, hw]
  · refine ⟨_, rfl, rfl, rfl, ?_, ?_, ?_⟩
    · show ((sorted.take 3).map Prod.fst).length = min 3 agents.length
      rw [List.length_map, List.length_take, List.length_insertionSort, List.length_map]
    · show ∀ p ∈ (sorted.take 3).map Prod.fst, p ∈ agents
      intro p hp
      obtain ⟨e, he, hep⟩ := List.mem_map.mp hp
      rw [← hep]
      exact hmem_agents e (List.mem_of_mem_take he)
    · show ∀ a ∈ agents, a ∉ (sorted.take 3).map Prod.fst →
        ∀ p ∈ (sorted.take 3).map Prod.fst, f a ≤ f p
      intro a ha hna p hp
      have hsorted : List.Pairwise (descBy Prod.snd) sorted :=
        List.sorted_insertionSort _ _
      have hsplit : sorted.take 3 ++ sorted.drop 3 = sorted := List.take_append_drop _ _
      have hga : g a ∈ sorted := hperm.mem_iff.mpr (List.mem_map_of_mem g ha)
      have hpw : List.Pairwise (descBy Prod.snd) (sorted.take 3 ++ sorted.drop 3) := by
        rw [hsplit]; exact hsorted
      obtain ⟨-, -, hcross⟩ := List.pairwise_append.mp hpw
      obtain ⟨ep, hep, hepp⟩ := List.mem_map.mp hp
      have hindrop : g a ∈ sorted.drop 3 := by
        rcases List.mem_append.mp (by rw [hsplit]; exact hga) with hin | hin
        · exact absurd (List.mem_map_of_mem Prod.fst hin) hna
        · exact hin
      have hrel : descBy Prod.snd ep (g a) := hcross ep hep (g a) hindrop
      have h1 : (g a).2 = f a := rfl
      have h2 : ep.2 = f ep.1 := hsnd ep (List.mem_of_mem_take hep)
      have : f a ≤ f ep.1 := by
        have := hrel
        unfold descBy at this
        rw [h1, h2] at this
        exact this
      rw [← hepp]
      exact this

def stC6 : ConsensusState :=
  { consensusThreshold := 0.7
    culturalWeights := []
    agentExpertise := [("A", 0.3)]
    decisionHistory := [] }

/-- C6 counterexample: with `agentExpertise = {A ↦ 0.3}` and agents
`[A, B]`, the claim's ranking (expertise defaulting to `0.5`) makes `B` the
strict top expert, but the source (defaulting to `0`) selects `A` for the
`'simple'` strategy. -/
theorem adaptive_consensus_default_counterexample :
    adaptiveConsensus stC6 .simple ["A", "B"] "ctx"
        = some { method := "single_expert", threshold := 0.6, participants := ["A"] } ∧
      claimExpertScore stC6 "ctx" "A" < claimExpertScore stC6 "ctx" "B" := by
  constructor
  · norm_num +decide [adaptiveConsensus, selectTopExpert, expertScore, stC6, mapGetD, mapGet]
  · norm_num +decide [claimExpertScore, stC6, mapGetD, mapGet]

theorem adaptive_consensus_strategies_witness :
    (["A", "B"] ≠ ([] : List String)) ∧
    ((∃ pre w post, ["A", "B"] = pre ++ w :: post ∧
      adaptiveConsensus stC6 .simple ["A", "B"] "ctx"
        = some { method := "single_expert", threshold := 0.6, participants := [w] } ∧
      (∀ a ∈ pre, expertScore stC6 "ctx" a < expertScore stC6 "ctx" w) ∧
      (∀ a ∈ post, expertScore stC6 "ctx" a ≤ expertScore stC6 "ctx" w)) ∧
    (∃ r, adaptiveConsensus stC6 .moderate ["A", "B"] "ctx" = some r ∧
      r.method = "expertise_weighted" ∧ r.threshold = 0.7 ∧
      r.participants.length = min 3 (["A", "B"] : List String).length ∧
      (∀ p ∈ r.participants, p ∈ (["A", "B"] : List String)) ∧
      (∀ a ∈ (["A", "B"] : List String), a ∉ r.participants → ∀ p ∈ r.participants,
        expertScore stC6 "ctx" a ≤ expertScore stC6 "ctx" p)) ∧
    adaptiveConsensus stC6 .complex ["A", "B"] "ctx"
      = some { method := "full_swarm_consensus", threshold := 0.8
               participants := ["A", "B"] }) :=
  ⟨by decide, adaptive_consensus_strategies stC6 ["A", "B"] "ctx" (by decide)⟩

theorem find_proposal_of_nodup_ids (l : List Proposal) (p : Proposal)
    (hnd : (l.map Proposal.agentId).Nodup) (hp : p ∈ l) :
    l.find? (fun q => q.agentId == p.agentId) = some p := by
  induction l with
  | nil => cases hp
  | cons a l ih =>
      rw [List.map_cons] at hnd
      obtain ⟨hna, hnd'⟩ := List.nodup_cons.mp hnd
      by_cases hpa : a.agentId = p.agentId
      · have hap : p = a := by
          rcases List.mem_cons.mp hp with h | h
          · exact h
          · exact absurd (hpa ▸ List.mem_map_of_mem Proposal.agentId h) hna
        subst hap
        rw [List.find?_cons_of_pos _ (by simpa using hpa)]
      · have hp' : p ∈ l := by
          rcases List.mem_cons.mp hp with h | h
          · exact absurd (h ▸ rfl) hpa
          · exact h
        rw [List.find?_cons_of_neg _ (by simpa using hpa)]
        exact ih hnd' hp'

/-- C3 (amended): for every non-empty proposal list whose agent ids are
pairwise distinct, `expertiseWeightedVoting` weights each proposal by
`agentExpertise(agentId)·culturalWeight(context)·confidence` (defaults 0.5 /
1.0), returns as decision the earliest proposal of maximal weight,
confidence `winnerWeight / Σweights` (0 when the total is not positive),
and appends exactly one decision to `decisionHistory`, touching no other
state.  (For duplicate agent ids the `votes` map deduplicates and the
claim's formula fails — see the counterexample.) -/
theorem voting_selects_max_weight (st : ConsensusState) (proposals : List Proposal)
    (culturalContext : String) (now : ℕ) (hne : proposals ≠ [])
    (hnd : (proposals.map Proposal.agentId).Nodup) :
    ∃ pre w post, proposals = pre ++ w :: post ∧
      ((expertiseWeightedVoting st proposals culturalContext now).1.decision
          = some w.proposal ∧
        (expertiseWeightedVoting st proposals culturalContext now).1.confidence
          = (if 0 < (proposals.map (voteWeight st culturalContext)).sum
             then voteWeight st culturalContext w
                / (proposals.map (voteWeight st culturalContext)).sum
             else 0) ∧
        (expertiseWeightedVoting st proposals culturalContext now).1.participatingAgents
          = proposals.map Proposal.agentId ∧
        (expertiseWeightedVoting st proposals culturalContext now).2.decisionHistory
          = st.decisionHistory
              ++ [(expertiseWeightedVoting st proposals culturalContext now).1] ∧
        (expertiseWeightedVoting st proposals culturalContext now).2.agentExpertise
          = st.agentExpertise ∧
        (expertiseWeightedVoting st proposals culturalContext now).2.culturalWeights
          = st.culturalWeights) ∧
      (∀ p ∈ pre, voteWeight st culturalContext p < voteWeight st culturalContext w) ∧
      (∀ p ∈ post, voteWeight st culturalContext p ≤ voteWeight st culturalContext w) := by
  obtain ⟨w, hw⟩ := argmaxFirst_isSome (voteWeight st culturalContext) proposals hne
  obtain ⟨pre, post, heq, hpre, hpost⟩ :=
    argmaxFirst_split (voteWeight st culturalContext) proposals w hw
  have hwmem : w ∈ proposals := by
    rw [heq]
    exact List.mem_append.mpr (Or.inr (List.mem_cons_self _ _))
  have hvotes : proposals.foldl
      (fun m p => mapSet m p.agentId (voteWeight st culturalContext p)) []
      = proposals.map (fun p => (p.agentId, voteWeight st culturalContext p)) := by
    have h := foldl_mapSet_eq_append Proposal.agentId (voteWeight st culturalContext)
      proposals [] hnd (by intro x hx; rfl)
    simpa using h
  have hsorthead : ((proposals.map
        (fun p => (p.agentId, voteWeight st culturalContext p))).insertionSort
      (descBy Prod.snd)).head? = some (w.agentId, voteWeight st culturalContext w) := by
    rw [head_insertionSort_descBy, argmaxFirst_map, hw]
    rfl
  have hfind : proposals.find? (fun q => q.agentId == w.agentId) = some w :=
    find_proposal_of_nodup_ids proposals w hnd hwmem
  have hval : expertiseWeightedVoting st proposals culturalContext now
      = (let d : SwarmDecision :=
          { taskId := s!"decision_{now}"
            decision := some w.proposal
            confidence := if 0 < (proposals.map (voteWeight st culturalContext)).sum
              then voteWeight st culturalContext w
                / (proposals.map (voteWeight st culturalContext)).sum
              else 0
            participatingAgents := proposals.map Proposal.agentId
            culturalContext := culturalContext };
          (d, { st with decisionHistory := st.decisionHistory ++ [d] })) := by
    have hcomp : (Prod.snd ∘ fun p => (p.agentId, voteWeight st culturalContext p))
        = voteWeight st culturalContext := by
      funext p
      rfl
    unfold expertiseWeightedVoting
    rw [if_neg (by simpa using hne)]
    simp only [hvotes, hsorthead, Option.getD_some, List.map_map, hcomp,
      hfind, Option.map_some']
  refine ⟨pre, w, post, heq, ?_, hpre, hpost⟩
  rw [hval]
  exact ⟨rfl, rfl, rfl, rfl, rfl, rfl⟩

def dupProposals : List Proposal :=
  [{ agentId := "A", proposal := "p1", confidence := 0.9 },
   { agentId := "A", proposal := "p2", confidence := 0.1 }]

/-- C3 counterexample: with two proposals from the same agent, the
`votes` map keeps only the later weight, so the source returns confidence
`1`, while the claim's formula (winner weight over the sum of *all*
per-proposal weights) gives `0.45 / 0.5 = 0.9`. -/
theorem voting_duplicate_ids_counterexample :
    (expertiseWeightedVoting (initConsensus 0.7) dupProposals "ctx" 0).1.confidence = 1 ∧
      claimVoteConfidence (initConsensus 0.7) "ctx" dupProposals = 9 / 10 ∧
      (1 : ℚ) ≠ 9 / 10 := by
  refine ⟨?_, ?_, by norm_num⟩
  · norm_num +decide [expertiseWeightedVoting, dupProposals, voteWeight, initConsensus,
      mapGetD, mapGet, mapSet, List.insertionSort, List.orderedInsert, descBy]
  · norm_num +decide [claimVoteConfidence, dupProposals, voteWeight, initConsensus,
      mapGetD, mapGet, argmaxFirst, pickBetter]

def stVoteW : ConsensusState :=
  { consensusThreshold := 0.7
    culturalWeights := [("ctx", 1)]
    agentExpertise := [("A", 0.5), ("B", 0.9)]
    decisionHistory := [] }

def propsVoteW : List Proposal :=
  [{ agentId := "A", proposal := "p1", confidence := 0.9 },
   { agentId := "B", proposal := "p2", confidence := 0.5 }]

theorem voting_selects_max_weight_witness :
    (propsVoteW ≠ [] ∧ (propsVoteW.map Proposal.agentId).Nodup) ∧
    (∃ pre w post, propsVoteW = pre ++ w :: post ∧
      ((expertiseWeightedVoting stVoteW propsVoteW "ctx" 0).1.decision = some w.proposal ∧
        (expertiseWeightedVoting stVoteW propsVoteW "ctx" 0).1.confidence
          = (if 0 < (propsVoteW.map (voteWeight stVoteW "ctx")).sum
             then voteWeight stVoteW "ctx" w / (propsVoteW.map (voteWeight stVoteW "ctx")).sum
             else 0) ∧
        (expertiseWeightedVoting stVoteW propsVoteW "ctx" 0).1.participatingAgents
          = propsVoteW.map Proposal.agentId ∧
        (expertiseWeightedVoting stVoteW propsVoteW "ctx" 0).2.decisionHistory
          = stVoteW.decisionHistory ++ [(expertiseWeightedVoting stVoteW propsVoteW "ctx" 0).1] ∧
        (expertiseWeightedVoting stVoteW propsVoteW "ctx" 0).2.agentExpertise
          = stVoteW.agentExpertise ∧
        (expertiseWeightedVoting stVoteW propsVoteW "ctx" 0).2.culturalWeights
          = stVoteW.culturalWeights) ∧
      (∀ p ∈ pre, voteWeight stVoteW "ctx" p < voteWeight stVoteW "ctx" w) ∧
      (∀ p ∈ post, voteWeight stVoteW "ctx" p ≤ voteWeight stVoteW "ctx" w)) ∧
    ((expertiseWeightedVoting stVoteW propsVoteW "ctx" 0).1.decision = some "p1" ∧
      (expertiseWeightedVoting stVoteW propsVoteW "ctx" 0).1.confidence = 1 / 2) := by
  refine ⟨⟨by decide, by decide⟩,
    voting_selects_max_weight stVoteW propsVoteW "ctx" 0 (by decide) (by decide), ?_, ?_⟩
  · norm_num +decide [expertiseWeightedVoting, propsVoteW, stVoteW, voteWeight,
      mapGetD, mapGet, mapSet, List.insertionSort, List.orderedInsert, descBy]
  · norm_num +decide [expertiseWeightedVoting, propsVoteW, stVoteW, voteWeight,
      mapGetD, mapGet, mapSet, List.insertionSort, List.orderedInsert, descBy]

/-- With a non-empty requirement list, the capability division is finite
and `intelligentScore` is `some` of its finite value. -/
theorem intelligentScore_eq_some (task : SwarmTask) (agent : AgentInfo)
    (network : NetworkInfo) (hreq : task.requiredCapabilities ≠ []) :
    intelligentScore task agent network
      = some ((intelligentScore task agent network).getD 0) := by
  have h0 : ((task.requiredCapabilities.length : ℕ) : ℚ) ≠ 0 := by
    have hn : task.requiredCapabilities.length ≠ 0 :=
      fun h => hreq (List.length_eq_zero.mp h)
    exact_mod_cast hn
  unfold intelligentScore jsDiv
  simp only [if_neg h0]
  rfl

/-- On all-finite scores the scan loop of `selectIntelligently` is the
strict-maximum selection `pickBetter`. -/
theorem foldl_optionScan_eq_pick :
    ∀ (l : List (String × ℚ)) (acc : String × ℚ),
      (l.map (fun p => (p.1, some p.2))).foldl
        (fun acc e =>
          match e.2 with
          | some s => if s > acc.2 then (e.1, s) else acc
          | none => acc) acc
      = l.foldl (pickBetter Prod.snd) acc := by
  intro l
  induction l with
  | nil => intro acc; rfl
  | cons p l ih =>
      intro acc
      simp only [List.map_cons, List.foldl_cons]
      have hstep : (if p.2 > acc.2 then (p.1, p.2) else acc)
          = pickBetter Prod.snd acc p := by
        unfold pickBetter
        by_cases h : p.2 > acc.2
        · simp [h]
        · simp [h]
      rw [hstep]
      exact ih _

/-- C4 (amended): for a non-empty, duplicate-free list of eligible
agents all present in both registries, and a task with a non-empty
`requiredCapabilities` set, `selectIntelligently` returns the
earliest agent maximizing the *source's* weighted score (`agentScoreOf`:
capability 40, accuracy 20, speed 10, centrality 20, trust 10 of 100
points — i.e. the speed term carries normalized coefficient 0.01, not the
0.10 the claim states; performance terms are 0 for an empty history).
With an empty requirement list every JS score is `NaN` and the source
returns `agents[0]` instead — see
`select_intelligently_empty_requirements`. -/
theorem select_intelligently_max (mgr : ManagerState) (task : SwarmTask)
    (agents : List String) (hne : agents ≠ []) (hnd : agents.Nodup)
    (hreg : ∀ a ∈ agents, (mapGet mgr.agents a).isSome ∧ (mapGet mgr.agentNetworks a).isSome)
    (hreq : task.requiredCapabilities ≠ []) :
    ∃ pre w post, agents = pre ++ w :: post ∧
      selectIntelligently mgr task agents = .ok w ∧
      (∀ a ∈ pre, agentScoreOf mgr task a < agentScoreOf mgr task w) ∧
      (∀ a ∈ post, agentScoreOf mgr task a ≤ agentScoreOf mgr task w) := by
  obtain ⟨w, hw⟩ := argmaxFirst_isSome (agentScoreOf mgr task) agents hne
  obtain ⟨pre, post, heq, hpre, hpost⟩ :=
    argmaxFirst_split (agentScoreOf mgr task) agents w hw
  refine ⟨pre, w, post, heq, ?_, hpre, hpost⟩
  cases agents with
  | nil => exact absurd rfl hne
  | cons a0 rest =>
      have hstep : ∀ (m : List (String × Option ℚ)), ∀ x ∈ a0 :: rest,
          (match mapGet mgr.agents x, mapGet mgr.agentNetworks x with
           | some agent, some network => mapSet m x (intelligentScore task agent network)
           | _, _ => m) = mapSet m x (some (agentScoreOf mgr task x)) := by
        intro m x hx
        obtain ⟨h1, h2⟩ := hreg x hx
        obtain ⟨ag, hag⟩ := Option.isSome_iff_exists.mp h1
        obtain ⟨nw, hnw⟩ := Option.isSome_iff_exists.mp h2
        rw [hag, hnw]
        show mapSet m x (intelligentScore task ag nw)
          = mapSet m x (some (agentScoreOf mgr task x))
        rw [intelligentScore_eq_some task ag nw hreq]
        simp [agentScoreOf, hag, hnw]
      have hscores : (a0 :: rest).foldl
          (fun m agentId =>
            match mapGet mgr.agents agentId, mapGet mgr.agentNetworks agentId with
            | some agent, some network =>
                mapSet m agentId (intelligentScore task agent network)
            | _, _ => m) []
          = (a0 :: rest).map (fun a => (a, some (agentScoreOf mgr task a))) := by
        rw [foldl_congr_of_mem (a0 :: rest) _ _ (by
          intro b x hx
          exact hstep b x hx) []]
        have h := foldl_mapSet_eq_append (fun a => a)
          (fun a => some (agentScoreOf mgr task a))
          (a0 :: rest) [] (by simpa using hnd) (by intro x hx; rfl)
        simpa using h
      have hinit : jsNumOrZero
          (mapGet ((a0 :: rest).map (fun a => (a, some (agentScoreOf mgr task a)))) a0)
          = agentScoreOf mgr task a0 := by
        rw [mapGet_map_of_mem _ _ _ (List.mem_cons_self _ _)]
        rfl
      have hlift : (a0 :: rest).map (fun a => (a, some (agentScoreOf mgr task a)))
          = ((a0 :: rest).map (fun a => (a, agentScoreOf mgr task a))).map
              (fun p => (p.1, some p.2)) := by
        rw [List.map_map]
        rfl
      have hmax : argmaxFirst Prod.snd
          ((a0 :: rest).map (fun a => (a, agentScoreOf mgr task a)))
          = some (w, agentScoreOf mgr task w) := by
        rw [argmaxFirst_map, hw]
        rfl
      have hbest : ((a0 :: rest).map (fun a => (a, agentScoreOf mgr task a))).foldl
          (pickBetter Prod.snd) (a0, agentScoreOf mgr task a0)
          = (w, agentScoreOf mgr task w) := by
        have hc : argmaxFirst Prod.snd
            ((a0 :: rest).map (fun a => (a, agentScoreOf mgr task a)))
            = some ((rest.map (fun a => (a, agentScoreOf mgr task a))).foldl
                (pickBetter Prod.snd) (a0, agentScoreOf mgr task a0)) := rfl
        rw [hmax] at hc
        rw [List.map_cons, List.foldl_cons, pickBetter_self]
        exact (Option.some_inj.mp hc).symm
      show Except.ok
        (((a0 :: rest).foldl
          (fun m agentId =>
            match mapGet mgr.agents agentId, mapGet mgr.agentNetworks agentId with
            | some agent, some network =>
                mapSet m agentId (intelligentScore task agent network)
            | _, _ => m) []).foldl
            (fun acc e =>
              match e.2 with
              | some s => if s > acc.2 then (e.1, s) else acc
              | none => acc)
            (a0, jsNumOrZero (mapGet ((a0 :: rest).foldl
              (fun m agentId =>
                match mapGet mgr.agents agentId, mapGet mgr.agentNetworks agentId with
                | some agent, some network =>
                    mapSet m agentId (intelligentScore task agent network)
                | _, _ => m) []) a0))).1 = Except.ok w
      rw [hscores, hinit, hlift, foldl_optionScan_eq_pick, hbest]

/-- With an empty `requiredCapabilities` list the JS source computes
`0/0 = NaN` inside every agent's score; `NaN > maxScore` never fires, so
`selectIntelligently` returns `agents[0]` unconditionally (the
non-finite path whose collapse the original total-division embedding would
have hidden). -/
theorem select_intelligently_empty_requirements (mgr : ManagerState) (task : SwarmTask)
    (a0 : String) (rest : List String) (hreq : task.requiredCapabilities = []) :
    selectIntelligently mgr task (a0 :: rest) = .ok a0 := by
  have hnone : ∀ (agent : AgentInfo) (network : NetworkInfo),
      intelligentScore task agent network = none := by
    intro agent network
    unfold intelligentScore jsDiv
    rw [hreq]
    simp
  have hallnone : ∀ (agents' : List String) (m : List (String × Option ℚ)),
      (∀ e ∈ m, e.2 = none) →
      ∀ e ∈ agents'.foldl
        (fun m agentId =>
          match mapGet mgr.agents agentId, mapGet mgr.agentNetworks agentId with
          | some agent, some network => mapSet m agentId (intelligentScore task agent network)
          | _, _ => m) m, e.2 = none := by
    intro agents'
    induction agents' with
    | nil => intro m hm e he; exact hm e he
    | cons x xs ih =>
        intro m hm e he
        rw [List.foldl_cons] at he
        refine ih _ ?_ e he
        intro e' he'
        cases hga : mapGet mgr.agents x with
        | none =>
            rw [hga] at he'
            exact hm e' he'
        | some ag =>
            cases hgn : mapGet mgr.agentNetworks x with
            | none =>
                rw [hga, hgn] at he'
                exact hm e' he'
            | some nw =>
                rw [hga, hgn] at he'
                rcases mem_mapSet _ _ _ e' he' with h | h
                · rw [h, hnone ag nw]
                · exact hm e' h
  have hkeep : ∀ (l : List (String × Option ℚ)) (acc : String × ℚ),
      (∀ e ∈ l, e.2 = none) →
      l.foldl (fun acc e =>
        match e.2 with
        | some s => if s > acc.2 then (e.1, s) else acc
        | none => acc) acc = acc := by
    intro l
    induction l with
    | nil => intro acc _; rfl
    | cons e l ih =>
        intro acc hl
        rw [List.foldl_cons]
        have he : e.2 = none := hl e (List.mem_cons_self _ _)
        simp only [he]
        exact ih _ (fun e' he' => hl e' (List.mem_cons_of_mem _ he'))
  simp only [selectIntelligently]
  rw [hkeep _ _ (hallnone (a0 :: rest) [] (by intro e he; cases he))]

def mgrC4 : ManagerState :=
  { agents :=
      [("A1", { availableCapabilities := ["x"], performanceHistory := [], trustScore := 0 }),
       ("A2", { availableCapabilities := []
                performanceHistory := [{ accuracy := 0, completionTime := 0 }]
                trustScore := 0 })]
    agentNetworks := [("A1", { centrality := 0 }), ("A2", { centrality := 0 })] }

def taskC4 : SwarmTask := { requiredCapabilities := ["x"] }

/-- C4 counterexample: agent `A1` (full capability match, no history)
scores 40 of 100 points in the source against `A2`'s 10 (speed term only),
so the source selects `A1`; under the claim's formula the speed term is
weighted `0.10·max(0, 10 − t/1000)`, giving `A2` score 1.0 against `A1`'s
0.40, so the claim demands `A2`. -/
theorem select_intelligently_counterexample :
    selectIntelligently mgrC4 taskC4 ["A1", "A2"] = .ok "A1" ∧
      claimAgentScoreOf mgrC4 taskC4 "A1" < claimAgentScoreOf mgrC4 taskC4 "A2" := by
  constructor
  · norm_num +decide [selectIntelligently, mgrC4, taskC4, mapGet, mapSet,
      intelligentScore, jsDiv, jsNumOrZero, max_def]
  · norm_num +decide [claimAgentScoreOf, claimIntelligentScore, mgrC4, taskC4,
      mapGet, max_def]

theorem select_intelligently_max_witness :
    ((["A1", "A2"] : List String) ≠ [] ∧ (["A1", "A2"] : List String).Nodup ∧
      (∀ a ∈ (["A1", "A2"] : List String),
        (mapGet mgrC4.agents a).isSome ∧ (mapGet mgrC4.agentNetworks a).isSome) ∧
      taskC4.requiredCapabilities ≠ []) ∧
    (∃ pre w post, (["A1", "A2"] : List String) = pre ++ w :: post ∧
      selectIntelligently mgrC4 taskC4 ["A1", "A2"] = .ok w ∧
      (∀ a ∈ pre, agentScoreOf mgrC4 taskC4 a < agentScoreOf mgrC4 taskC4 w) ∧
      (∀ a ∈ post, agentScoreOf mgrC4 taskC4 a ≤ agentScoreOf mgrC4 taskC4 w)) :=
  ⟨⟨by decide, by decide, by decide, by decide⟩,
    select_intelligently_max mgrC4 taskC4 ["A1", "A2"] (by decide) (by decide) (by decide)
      (by decide)⟩

/-- C2: for every non-empty result list, `applyConsensus` returns the
most frequent result under the canonical serialization (ties broken by the
first-seen key: the winner appears in the first-occurrence key order with
every earlier key strictly less frequent and every later key at most as
frequent), `agreementLevel = winnerCount/totalResults`,
`confidence = agreementLevel`, and the dissenting opinions are exactly the
inputs differing from the winner. -/
theorem apply_consensus_majority (α : Type) [DecidableEq α] (results : List α)
    (hne : results ≠ []) :
    ∃ out w pre post, applyConsensus results = .ok out ∧
      firstOccurrences results = pre ++ w :: post ∧
      out.decision = some w ∧
      out.agreementLevel = (results.count w : ℚ) / (results.length : ℚ) ∧
      out.confidence = out.agreementLevel ∧
      out.dissentingOpinions = results.filter (fun r => decide (r ≠ w)) ∧
      (∀ k ∈ pre, results.count k < results.count w) ∧
      (∀ k ∈ post, results.count k ≤ results.count w) := by
  have hlen0 : ¬ results.length = 0 := fun h => hne (List.length_eq_zero.mp h)
  by_cases hlen1 : results.length = 1
  · obtain ⟨r, hr⟩ := List.length_eq_one.mp hlen1
    subst hr
    refine ⟨{ decision := some r, agreementLevel := 1, confidence := 1
              dissentingOpinions := [] }, r, [], [], rfl, rfl, rfl, ?_, rfl, ?_,
      by simp, by simp⟩
    · simp
    · simp [List.filter]
  · have hfo_ne : firstOccurrences results ≠ [] := by
      cases results with
      | nil => exact absurd rfl hne
      | cons x xs =>
          exact List.ne_nil_of_mem ((mem_firstOccurrences _ x).mpr (List.mem_cons_self _ _))
    obtain ⟨wk, hwk⟩ :=
      argmaxFirst_isSome (fun k => results.count k) (firstOccurrences results) hfo_ne
    obtain ⟨pre, post, heqfo, hprefo, hpostfo⟩ :=
      argmaxFirst_split (fun k => results.count k) (firstOccurrences results) wk hwk
    cases hfo : firstOccurrences results with
    | nil => exact absurd hfo hfo_ne
    | cons k0 fos =>
        have hc : countsOf results
            = (k0, results.count k0) :: fos.map (fun k => (k, results.count k)) := by
          rw [countsOf_eq, hfo]
          rfl
        have hk0mem : k0 ∈ results :=
          (mem_firstOccurrences results k0).mp (by rw [hfo]; exact List.mem_cons_self _ _)
        have hk0pos : 0 < results.count k0 := List.count_pos_iff.mpr hk0mem
        obtain ⟨wp, hwp, hscan⟩ := scan_eq_argmaxFirst (countsOf results)
          (k0, results.count k0) (fos.map (fun k => (k, results.count k))) hc hk0pos
        have hmax : argmaxFirst Prod.snd (countsOf results)
            = some (wk, results.count wk) := by
          rw [countsOf_eq, argmaxFirst_map]
          have : argmaxFirst (fun x => Prod.snd (x, results.count x))
              (firstOccurrences results)
              = argmaxFirst (fun k => results.count k) (firstOccurrences results) := rfl
          rw [this, hwk]
          rfl
        have hwp_eq : wp = (wk, results.count wk) := by
          rw [hwp] at hmax
          exact Option.some_inj.mp hmax
        subst hwp_eq
        have hfilter : (fun (r : α) => decide (¬ some r = some wk))
            = fun r => decide (¬ r = wk) := by
          funext r
          simp
        have happly : applyConsensus results
            = .ok { decision := some wk
                    agreementLevel := (results.count wk : ℚ) / (results.length : ℚ)
                    confidence := (results.count wk : ℚ) / (results.length : ℚ)
                    dissentingOpinions := results.filter (fun r => decide (r ≠ wk)) } := by
          unfold applyConsensus
          rw [if_neg hlen0, if_neg hlen1]
          simp only [hscan, hfilter]
        rw [hfo] at heqfo
        exact ⟨_, wk, pre, post, happly, heqfo, rfl, rfl, rfl, rfl, hprefo, hpostfo⟩

theorem apply_consensus_majority_witness :
    (["X", "X", "Y"] ≠ ([] : List String)) ∧
    (∃ out w pre post, applyConsensus ["X", "X", "Y"] = .ok out ∧
      firstOccurrences ["X", "X", "Y"] = pre ++ w :: post ∧
      out.decision = some w ∧
      out.agreementLevel = ((["X", "X", "Y"] : List String).count w : ℚ)
        / ((["X", "X", "Y"] : List String).length : ℚ) ∧
      out.confidence = out.agreementLevel ∧
      out.dissentingOpinions = (["X", "X", "Y"] : List String).filter (fun r => decide (r ≠ w)) ∧
      (∀ k ∈ pre, (["X", "X", "Y"] : List String).count k
        < (["X", "X", "Y"] : List String).count w) ∧
      (∀ k ∈ post, (["X", "X", "Y"] : List String).count k
        ≤ (["X", "X", "Y"] : List String).count w)) ∧
    applyConsensus ["X", "X", "Y"]
      = .ok { decision := some "X", agreementLevel := 2 / 3, confidence := 2 / 3
              dissentingOpinions := ["Y"] } := by
  refine ⟨by decide, apply_consensus_majority String ["X", "X", "Y"] (by decide), ?_⟩
  norm_num +decide [applyConsensus, countsOf, mapSet, mapGetD, mapGet]

end Synapse
